import Mathlib

/-!
Shallow embedding of osquery's event recording and time-indexed retrieval
engine (the core specified in spec.md) and of the namespaced key-value
database boundary, together with proofs of the testable properties.

The C++ implementation files (osquery/events/events.cpp and
osquery/core/database.cpp) are not present under src/ of this excerpt; only
their tests (events_database_tests.cpp, database_tests.cpp) and headers are.
The definitions below are therefore modelled from the specification's own
description of each component, kept consistent with the expectations pinned
by the tests.
-/

namespace OsqueryEvents

/-- An event's index/record entry: its numeric event id and the timestamp
(in seconds) it was recorded with.  The row payload itself is irrelevant to
the indexed-retrieval properties, so a record is reduced to `(id, time)`. -/
structure EventRecord where
  id : Nat
  time : Nat
deriving DecidableEq

/-- Modelled from the spec: the per-subscriber persisted state of the event
engine (the implementation in osquery/events/events.cpp is not under src/).
`eid` is the id counter stored at key `eid.<subscriber>` (`none` = key
absent), `index` the time-bucket index records (`records.<subscriber>.*`)
and `data` the stored event rows (`data.<subscriber>.<id>`), kept in
insertion (= id) order as the store's lexicographic key scan returns them. -/
structure EventsState where
  eid : Option Nat
  index : List EventRecord
  data : List EventRecord
deriving DecidableEq

/-- A fresh subscriber namespace: no counter key, no records, no data. -/
def emptyState : EventsState := ⟨none, [], []⟩

/-- Zero-pad a decimal rendering to the fixed event-id width of 10 digits. -/
def pad10 (n : Nat) : String :=
  String.mk (List.replicate (10 - (Nat.repr n).length) '0') ++ Nat.repr n

/-- Modelled from the spec: `nextId` / `getEventID` (implementation absent
from src/): read the counter (defaulting to 0 if the key is absent),
increment by 1, write the new value back, return the zero-padded string. -/
def getEventID (s : EventsState) : String × EventsState :=
  let prev := s.eid.getD 0
  (pad10 (prev + 1), { s with eid := some (prev + 1) })

/-- Issue `k` successive event ids, returning them in order. -/
def issueIds : EventsState → Nat → List String
  | _, 0 => []
  | s, k + 1 => (getEventID s).1 :: issueIds (getEventID s).2 k

/-- Modelled from the spec: `add(row, time)` (implementation absent from
src/): allocate the next id, persist the record under that id, and append
the id into the finest-granularity time bucket covering `time`. -/
def add (s : EventsState) (t : Nat) : EventsState :=
  let eid := s.eid.getD 0 + 1
  ⟨some eid, s.index ++ [⟨eid, t⟩], s.data ++ [⟨eid, t⟩]⟩

/-- Run a sequence of `add` calls on a fresh subscriber. -/
def runAdds (ts : List Nat) : EventsState :=
  ts.foldl add emptyState

/-- The finest (and, per the test expectations, only active) granularity of
the time-bucket index: 60 seconds. -/
def kEventTimeList : Nat := 60

/-- The bucket index covering a timestamp: `floor(timestamp / granularity)`. -/
def bucketOf (t : Nat) : Nat := t / kEventTimeList

/-- Insert a bucket index into an ascending duplicate-free list of bucket
indices, keeping it ascending and duplicate-free. -/
def insertBucket (b : Nat) : List Nat → List Nat
  | [] => [b]
  | x :: xs =>
    if b < x then b :: x :: xs
    else if b = x then x :: xs
    else x :: insertBucket b xs

/-- The ascending list of (non-empty) bucket indices referenced by a list of
index records. -/
def bucketsAux (rs : List EventRecord) : List Nat :=
  rs.foldr (fun r acc => insertBucket (bucketOf r.time) acc) []

/-- The ascending list of bucket indices present in a subscriber's index. -/
def bucketList (es : EventsState) : List Nat :=
  bucketsAux es.index

/-- Modelled from the spec: `plan` / `getIndexes(start, stop)` (implementation
absent from src/): the naturally time-ordered bucket indices overlapping
`[start, stop]`, where `stop = 0` is the open-ended-upper-bound sentinel. -/
def getIndexes (es : EventsState) (start stop : Nat) : List Nat :=
  (bucketList es).filter fun b =>
    decide (start / kEventTimeList ≤ b) &&
      (stop == 0 || decide (b ≤ stop / kEventTimeList))

/-- The persisted key of a finest-granularity bucket, as the tests render it. -/
def indexKey (b : Nat) : String := "60." ++ Nat.repr b

/-- The planned bucket keys in their persisted string form. -/
def getIndexKeys (es : EventsState) (start stop : Nat) : List String :=
  (getIndexes es start stop).map indexKey

/-- Modelled from the spec: `records(bucketKeys)` / `getRecords` (implementation
absent from src/): every event record referenced by the given buckets. -/
def getRecords (es : EventsState) (buckets : List Nat) : List EventRecord :=
  es.index.filter fun r => decide (bucketOf r.time ∈ buckets)

/-- The caller-side exact-timestamp filter applied to planned results. -/
def filterTime (start stop : Nat) (rs : List EventRecord) : List EventRecord :=
  rs.filter fun r => decide (start ≤ r.time) && decide (r.time ≤ stop)

/-- Modelled from the spec: age-based expiry (implementation absent from
src/): delete every event record, and its index references, whose timestamp
is older than the cutoff `now - expiry_seconds`. -/
def expireRecords (cutoff : Nat) (es : EventsState) : EventsState :=
  { es with
    index := es.index.filter fun r => decide (cutoff ≤ r.time)
    data := es.data.filter fun r => decide (cutoff ≤ r.time) }

/-- Modelled from the spec: the age-based expiry pass of the Retention
Manager, active only when `expiry_seconds > 0`, run with the cycle's
captured `now`. -/
def expireAge (expiry now : Nat) (es : EventsState) : EventsState :=
  if expiry = 0 then es else expireRecords (now - expiry) es

/-- Modelled from the spec: the count-based expiry pass / `expireCheck`
(implementation absent from src/): if the number of buffered events exceeds
`max_events`, delete the oldest `count - max_events` records by id order
(the data list is kept in ascending id order, as the store's key scan
yields it) together with their index references. -/
def expireEventsCheck (max_events : Nat) (es : EventsState) : EventsState :=
  if es.data.length ≤ max_events then es
  else
    let excess := es.data.length - max_events
    let victims := (es.data.take excess).map fun r => r.id
    { es with
      data := es.data.drop excess
      index := es.index.filter fun r => decide (r.id ∉ victims) }

/-- Modelled from the spec: one full Retention Manager cycle (implementation
absent from src/): the age-based pass followed by the count-based pass. -/
def runExpiry (max_events expiry now : Nat) (es : EventsState) : EventsState :=
  expireEventsCheck max_events (expireAge expiry now es)

/-- Modelled from the spec: the per-query-name consumption checkpoint
(implementation absent from src/): the subscriber's event state plus the
persisted `optimize.<queryName>` time and the associated eid floor. -/
structure OptState where
  events : EventsState
  optimize_time : Nat
  optimize_eid : Nat
deriving DecidableEq

/-- One consumption cycle: a batch of intervening inserts (timestamps) and
the wall-clock `now` at which the optimized read then runs. -/
structure OptCycle where
  inserts : List Nat
  now : Nat
deriving DecidableEq

/-- Modelled from the spec: one optimized read (implementation absent from
src/): apply the cycle's intervening inserts, scan from the persisted
`optimize_time` with the open-ended upper bound (the `stop = 0` sentinel, as
pinned by test_optimize, which delivers events timestamped beyond `now`),
drop every id at or below the persisted `optimize_eid`, then persist
`optimize_time = now` and `optimize_eid = max(ids delivered, previous)`. -/
def optStep (os : OptState) (c : OptCycle) : List Nat × OptState :=
  let es := c.inserts.foldl add os.events
  let scanned := getRecords es (getIndexes es os.optimize_time 0)
  let delivered := (scanned.filter fun r => decide (os.optimize_eid < r.id)).map
    fun r => r.id
  (delivered, ⟨es, c.now, delivered.foldl max os.optimize_eid⟩)

/-- Run a sequence of optimized read cycles, returning each cycle's
delivered event ids. -/
def runOpt (os : OptState) : List OptCycle → List (List Nat)
  | [] => []
  | c :: cs => (optStep os c).1 :: runOpt (optStep os c).2 cs

/-- The invariant `add` maintains on a fresh subscriber's state: stored ids
are exactly `1 .. counter` in order, and the index mirrors the data. -/
def goodState (es : EventsState) : Prop :=
  es.data.map (fun r => r.id) =
      (List.range (es.eid.getD 0)).map (fun i => i + 1) ∧
    es.index = es.data

end OsqueryEvents

namespace OsqueryDB

/-- Modelled from the spec: the namespaced ordered key-value store boundary
(the implementation in osquery/core/database.cpp is absent from src/),
reduced to an association list from `(domain, key)` to the stored string. -/
def DBStore := List ((String × String) × String)

/-- Modelled from the spec: `put` / `setDatabaseValue`. -/
def setDatabaseValue (db : DBStore) (domain key value : String) : DBStore :=
  ((domain, key), value) ::
    List.filter (fun e => !(e.1 == (domain, key))) db

/-- Modelled from the spec: `delete` / `deleteDatabaseValue`. -/
def deleteDatabaseValue (db : DBStore) (domain key : String) : DBStore :=
  List.filter (fun e => !(e.1 == (domain, key))) db

/-- Modelled from the spec and test_get_value_does_not_exist:
`getDatabaseValue(domain, key, value&)` returns its status (`true` = ok)
together with the caller's output argument after the call.  A present key
yields `(true, stored value)`; an absent key yields a failed status and
leaves the output argument `value` untouched. -/
def getDatabaseValue (db : DBStore) (domain key : String) (value : String) :
    Bool × String :=
  match List.lookup (domain, key) db with
  | some v => (true, v)
  | none => (false, value)

/-- Modelled from the spec: the integer overload of `getDatabaseValue`: it
parses the stored string on success and leaves the output argument
untouched when the underlying string get fails or does not parse. -/
def getDatabaseValueInt (db : DBStore) (domain key : String) (value : Int) :
    Bool × Int :=
  match List.lookup (domain, key) db with
  | some v =>
    match v.toInt? with
    | some i => (true, i)
    | none => (false, value)
  | none => (false, value)

end OsqueryDB

namespace OsqueryEvents

theorem mem_insertBucket (a b : Nat) (l : List Nat) :
    a ∈ insertBucket b l ↔ a = b ∨ a ∈ l := by
  induction l with
  | nil => simp [insertBucket]
  | cons x xs ih =>
    by_cases hbx : b < x
    · simp [insertBucket, hbx]
    · by_cases hbe : b = x
      · subst hbe
        have hins : insertBucket b (b :: xs) = b :: xs := by
          simp [insertBucket]
        rw [hins]
        simp only [List.mem_cons]
        tauto
      · simp only [insertBucket, hbx, hbe, if_false, List.mem_cons, ih]
        tauto

theorem mem_bucketsAux (b : Nat) (rs : List EventRecord) :
    b ∈ bucketsAux rs ↔ ∃ r ∈ rs, bucketOf r.time = b := by
  induction rs with
  | nil => simp [bucketsAux]
  | cons r rs ih =>
    simp only [bucketsAux, List.foldr_cons, mem_insertBucket]
    rw [show (List.foldr (fun r acc => insertBucket (bucketOf r.time) acc)
      [] rs) = bucketsAux rs from rfl]
    simp only [ih, List.mem_cons]
    constructor
    · rintro (h | ⟨r', hr', hb⟩)
      · exact ⟨r, Or.inl rfl, h.symm⟩
      · exact ⟨r', Or.inr hr', hb⟩
    · rintro ⟨r', hr' | hr', hb⟩
      · subst hr'; exact Or.inl hb.symm
      · exact Or.inr ⟨r', hr', hb⟩

theorem mem_bucketList (b : Nat) (es : EventsState) :
    b ∈ bucketList es ↔ ∃ r ∈ es.index, bucketOf r.time = b :=
  mem_bucketsAux b es.index

theorem mem_getRecords (es : EventsState) (buckets : List Nat)
    (r : EventRecord) :
    r ∈ getRecords es buckets ↔ r ∈ es.index ∧ bucketOf r.time ∈ buckets := by
  simp [getRecords, List.mem_filter]

/-- Any record whose timestamp lies in `[start, stop]` is referenced by the
planned bucket set: the plan is a covering superset. -/
theorem covering_superset (es : EventsState) (start stop : Nat)
    (r : EventRecord) (hr : r ∈ es.index) (h1 : start ≤ r.time)
    (h2 : r.time ≤ stop) :
    r ∈ getRecords es (getIndexes es start stop) := by
  rw [mem_getRecords]
  refine ⟨hr, ?_⟩
  unfold getIndexes
  rw [List.mem_filter]
  refine ⟨(mem_bucketList _ es).2 ⟨r, hr, rfl⟩, ?_⟩
  have hle : start / kEventTimeList ≤ bucketOf r.time :=
    Nat.div_le_div_right h1
  have hge : bucketOf r.time ≤ stop / kEventTimeList :=
    Nat.div_le_div_right h2
  simp [hle, hge]

/-- Any record whose timestamp is at least `start` is referenced by the
open-ended plan `getIndexes start 0`. -/
theorem covering_superset_open (es : EventsState) (start : Nat)
    (r : EventRecord) (hr : r ∈ es.index) (h1 : start ≤ r.time) :
    r ∈ getRecords es (getIndexes es start 0) := by
  rw [mem_getRecords]
  refine ⟨hr, ?_⟩
  unfold getIndexes
  rw [List.mem_filter]
  refine ⟨(mem_bucketList _ es).2 ⟨r, hr, rfl⟩, ?_⟩
  have hle : start / kEventTimeList ≤ bucketOf r.time :=
    Nat.div_le_div_right h1
  simp [hle]

theorem getRecords_sub_index (es : EventsState) (buckets : List Nat)
    (r : EventRecord) (hr : r ∈ getRecords es buckets) : r ∈ es.index :=
  ((mem_getRecords es buckets r).1 hr).1

theorem goodState_empty : goodState emptyState := ⟨rfl, rfl⟩

theorem goodState_add (es : EventsState) (t : Nat) (h : goodState es) :
    goodState (add es t) ∧ (add es t).eid.getD 0 = es.eid.getD 0 + 1 := by
  obtain ⟨hid, hix⟩ := h
  refine ⟨⟨?_, ?_⟩, rfl⟩
  · simp only [add, List.map_append, hid, List.range_succ, Option.getD_some,
      List.map_cons, List.map_nil]
  · simp only [add, hix]

theorem goodState_foldl (ts : List Nat) (es : EventsState) (h : goodState es) :
    goodState (ts.foldl add es) ∧
      (ts.foldl add es).eid.getD 0 = es.eid.getD 0 + ts.length := by
  induction ts generalizing es with
  | nil => simpa using h
  | cons t ts ih =>
    obtain ⟨h1, h2⟩ := goodState_add es t h
    obtain ⟨h3, h4⟩ := ih (add es t) h1
    simp only [List.foldl_cons, List.length_cons]
    refine ⟨h3, ?_⟩
    rw [h4, h2]
    omega

theorem runAdds_good (ts : List Nat) : goodState (runAdds ts) :=
  (goodState_foldl ts emptyState goodState_empty).1

theorem runAdds_eid (ts : List Nat) : (runAdds ts).eid.getD 0 = ts.length := by
  have h := (goodState_foldl ts emptyState goodState_empty).2
  simpa [runAdds, emptyState] using h

theorem runAdds_data_ids (ts : List Nat) :
    (runAdds ts).data.map (fun r => r.id) =
      (List.range ts.length).map (fun i => i + 1) := by
  have h := (runAdds_good ts).1
  rwa [runAdds_eid ts] at h

theorem runAdds_index_eq_data (ts : List Nat) :
    (runAdds ts).index = (runAdds ts).data :=
  (runAdds_good ts).2

theorem runAdds_data_length (ts : List Nat) :
    (runAdds ts).data.length = ts.length := by
  have h := runAdds_data_ids ts
  have := congrArg List.length h
  simpa using this

theorem issueIds_from (k : Nat) : ∀ s : EventsState,
    issueIds s k = (List.range k).map (fun i => pad10 (s.eid.getD 0 + i + 1)) := by
  induction k with
  | zero => intro s; rfl
  | succ k ih =>
    intro s
    simp only [issueIds, getEventID]
    rw [ih]
    simp only [Option.getD_some, List.range_succ_eq_map, List.map_cons,
      List.map_map, Nat.add_zero]
    refine congrArg₂ List.cons rfl ?_
    refine List.map_congr_left ?_
    intro i _
    simp only [Function.comp_apply]
    exact congrArg pad10 (by omega)

/-- C3: the identifier allocator reads the counter (0 when absent),
increments, writes back and returns a 10-digit zero-padded decimal string;
over any number of calls on a fresh subscriber the issued ids are exactly
`1, 2, ..., k` in order (strictly increasing, gap-free), so the first two
calls return "0000000001" and "0000000002". -/
theorem event_ids_strictly_increasing_gapless :
    (∀ k : Nat,
      issueIds emptyState k = (List.range k).map (fun i => pad10 (i + 1))) ∧
    issueIds emptyState 2 = ["0000000001", "0000000002"] ∧
    (∀ s : EventsState,
      (getEventID s).2.eid = some (s.eid.getD 0 + 1) ∧
      (getEventID s).1 = pad10 (s.eid.getD 0 + 1)) := by
  refine ⟨?_, by decide, fun s => ⟨rfl, rfl⟩⟩
  intro k
  have h := issueIds_from k emptyState
  simpa [emptyState] using h

/-- C4: after inserting events at timestamps 2, 11, 61, 3601 and 7201 into a
fresh subscriber (finest granularity 60 s), the plan for `[0, 10800]` is
exactly the 60-second bucket keys with indices 0, 1, 60, 120 in ascending
time order, and the plan for `[0, 5]` is only the bucket key of index 0. -/
theorem record_indexing_scenario :
    getIndexKeys (runAdds [2, 11, 61, 3601, 7201]) 0 10800 =
      ["60.0", "60.1", "60.60", "60.120"] ∧
    getIndexKeys (runAdds [2, 11, 61, 3601, 7201]) 0 5 = ["60.0"] := by
  constructor <;> decide

/-- C1: for every add sequence and every `start ≤ stop`, the records resolved
from the planned buckets are a superset of every inserted record whose
timestamp lies in `[start, stop]`, and filtering the resolved records by
their exact timestamp yields exactly the inserted records whose timestamp
lies in `[start, stop]` — edge false positives allowed, false negatives
never. -/
theorem records_plan_covering (ts : List Nat) (start stop : Nat)
    (h : start ≤ stop) :
    (∀ r ∈ (runAdds ts).data, start ≤ r.time → r.time ≤ stop →
      r ∈ getRecords (runAdds ts) (getIndexes (runAdds ts) start stop)) ∧
    (∀ r, r ∈ filterTime start stop
        (getRecords (runAdds ts) (getIndexes (runAdds ts) start stop)) ↔
      r ∈ filterTime start stop (runAdds ts).data) := by
  have hix := runAdds_index_eq_data ts
  constructor
  · intro r hr h1 h2
    exact covering_superset (runAdds ts) start stop r (by rw [hix]; exact hr)
      h1 h2
  · intro r
    simp only [filterTime, List.mem_filter, Bool.and_eq_true,
      decide_eq_true_eq]
    constructor
    · rintro ⟨hr, h1, h2⟩
      have := getRecords_sub_index _ _ r hr
      rw [hix] at this
      exact ⟨this, h1, h2⟩
    · rintro ⟨hr, h1, h2⟩
      exact ⟨covering_superset (runAdds ts) start stop r
        (by rw [hix]; exact hr) h1 h2, h1, h2⟩

theorem records_plan_covering_witness :
    (0 : Nat) ≤ 70 ∧
    ((∀ r ∈ (runAdds [2, 11, 61]).data, 0 ≤ r.time → r.time ≤ 70 →
      r ∈ getRecords (runAdds [2, 11, 61])
        (getIndexes (runAdds [2, 11, 61]) 0 70)) ∧
    (∀ r, r ∈ filterTime 0 70
        (getRecords (runAdds [2, 11, 61])
          (getIndexes (runAdds [2, 11, 61]) 0 70)) ↔
      r ∈ filterTime 0 70 (runAdds [2, 11, 61]).data)) :=
  ⟨by decide, records_plan_covering [2, 11, 61] 0 70 (by decide)⟩

/-- C5: planning with the `stop = 0` sentinel is an open-ended upper bound,
equivalent to `plan(start, +infinity)`: the resolved records cover every
inserted id whose timestamp is at least `start`. -/
theorem plan_stop_zero_open_ended (ts : List Nat) (start : Nat) :
    ∀ r ∈ (runAdds ts).data, start ≤ r.time →
      r.id ∈ (getRecords (runAdds ts)
        (getIndexes (runAdds ts) start 0)).map (fun r2 => r2.id) := by
  intro r hr h1
  have hix := runAdds_index_eq_data ts
  exact List.mem_map.2 ⟨r, covering_superset_open (runAdds ts) start r
    (by rw [hix]; exact hr) h1, rfl⟩

theorem plan_stop_zero_open_ended_witness :
    (⟨2, 3700⟩ : EventRecord) ∈ (runAdds [5, 3700]).data ∧ 50 ≤ 3700 ∧
    (2 : Nat) ∈ (getRecords (runAdds [5, 3700])
      (getIndexes (runAdds [5, 3700]) 50 0)).map (fun r2 => r2.id) :=
  ⟨by decide, by decide,
    plan_stop_zero_open_ended [5, 3700] 50 ⟨2, 3700⟩ (by decide) (by decide)⟩

theorem expireEventsCheck_data_sub (m : Nat) (es : EventsState) :
    ∀ r ∈ (expireEventsCheck m es).data, r ∈ es.data := by
  unfold expireEventsCheck
  split
  · intro r hr; exact hr
  · intro r hr; exact List.drop_subset _ _ hr

theorem expireEventsCheck_index_sub (m : Nat) (es : EventsState) :
    ∀ r ∈ (expireEventsCheck m es).index, r ∈ es.index := by
  unfold expireEventsCheck
  split
  · intro r hr; exact hr
  · intro r hr
    simp only [List.mem_filter, decide_eq_true_eq] at hr
    exact hr.1

theorem expireEventsCheck_length_le (m : Nat) (es : EventsState) :
    (expireEventsCheck m es).data.length ≤ m := by
  unfold expireEventsCheck
  split
  · assumption
  · simp only [List.length_drop]; omega

theorem expireEventsCheck_of_le (m : Nat) (es : EventsState)
    (h : es.data.length ≤ m) : expireEventsCheck m es = es := by
  unfold expireEventsCheck
  rw [if_pos h]

theorem expireRecords_of_all (cutoff : Nat) (es : EventsState)
    (h1 : ∀ r ∈ es.data, cutoff ≤ r.time)
    (h2 : ∀ r ∈ es.index, cutoff ≤ r.time) :
    expireRecords cutoff es = es := by
  cases es with
  | mk eid index data =>
    simp only [expireRecords, EventsState.mk.injEq, true_and]
    constructor
    · exact List.filter_eq_self.2 fun r hr => decide_eq_true (h2 r hr)
    · exact List.filter_eq_self.2 fun r hr => decide_eq_true (h1 r hr)

/-- C7: age-based expiry with `expiry_seconds > 0` deletes exactly the
event records (and their index references) whose timestamp is older than
`now - expiry_seconds`; in particular, with `expiry_seconds = 10` and events
at `T - 1000` and `T - 1`, a cycle at `now = T` deletes the former and
retains the latter. -/
theorem expire_age_exact (expiry now : Nat) (es : EventsState)
    (h : 0 < expiry) :
    (∀ r, r ∈ (expireAge expiry now es).data ↔
      r ∈ es.data ∧ now - expiry ≤ r.time) ∧
    (∀ r, r ∈ (expireAge expiry now es).index ↔
      r ∈ es.index ∧ now - expiry ≤ r.time) := by
  have hne : expiry ≠ 0 := by omega
  constructor <;> intro r <;>
    simp [expireAge, hne, expireRecords, List.mem_filter]

theorem expire_age_exact_witness :
    0 < 10 ∧
    ((∀ r, r ∈ (expireAge 10 2000 (runAdds [1000, 1999])).data ↔
      r ∈ (runAdds [1000, 1999]).data ∧ 2000 - 10 ≤ r.time) ∧
    (∀ r, r ∈ (expireAge 10 2000 (runAdds [1000, 1999])).index ↔
      r ∈ (runAdds [1000, 1999]).index ∧ 2000 - 10 ≤ r.time)) ∧
    (⟨2, 1999⟩ : EventRecord) ∈ (expireAge 10 2000 (runAdds [1000, 1999])).data ∧
    (⟨1, 1000⟩ : EventRecord) ∉ (expireAge 10 2000 (runAdds [1000, 1999])).data :=
  ⟨by decide, expire_age_exact 10 2000 (runAdds [1000, 1999]) (by decide),
    by decide, by decide⟩

/-- C8: one full Retention Manager cycle (age-based pass then count-based
pass) is idempotent: running it twice in a row with no intervening inserts
leaves exactly the state produced by the first run. -/
theorem expiry_idempotent (m e n : Nat) (es : EventsState) :
    runExpiry m e n (runExpiry m e n es) = runExpiry m e n es := by
  unfold runExpiry
  by_cases he : e = 0
  · simp only [expireAge, he, if_pos rfl]
    exact expireEventsCheck_of_le m _ (expireEventsCheck_length_le m es)
  · have hage : ∀ X : EventsState, expireAge e n X = expireRecords (n - e) X := by
      intro X; simp [expireAge, he]
    rw [hage, hage]
    have h1 : ∀ r ∈ (expireEventsCheck m (expireRecords (n - e) es)).data,
        n - e ≤ r.time := by
      intro r hr
      have hmem := expireEventsCheck_data_sub m _ r hr
      simp only [expireRecords, List.mem_filter, decide_eq_true_eq] at hmem
      exact hmem.2
    have h2 : ∀ r ∈ (expireEventsCheck m (expireRecords (n - e) es)).index,
        n - e ≤ r.time := by
      intro r hr
      have hmem := expireEventsCheck_index_sub m _ r hr
      simp only [expireRecords, List.mem_filter, decide_eq_true_eq] at hmem
      exact hmem.2
    rw [expireRecords_of_all _ _ h1 h2]
    exact expireEventsCheck_of_le m _ (expireEventsCheck_length_le m _)

theorem runAdds_data_pairwise (ts : List Nat) :
    List.Pairwise (fun a b => a.id < b.id) (runAdds ts).data := by
  have h1 : List.Pairwise (· < ·) (List.range ts.length) :=
    List.pairwise_lt_range ts.length
  have h2 : List.Pairwise (· < ·)
      ((List.range ts.length).map (fun i => i + 1)) :=
    h1.map _ (fun a b hab => by omega)
  rw [← runAdds_data_ids] at h2
  exact List.pairwise_map.1 h2

theorem runAdds_take_drop_lt (ts : List Nat) (k : Nat) :
    ∀ r ∈ (runAdds ts).data.take k, ∀ r2 ∈ (runAdds ts).data.drop k,
      r.id < r2.id := by
  have hpw := runAdds_data_pairwise ts
  rw [← List.take_append_drop k (runAdds ts).data] at hpw
  exact (List.pairwise_append.1 hpw).2.2

/-- Filtering out the ids of the first `k` records deletes exactly those
records when every record beyond position `k` carries a strictly larger id. -/
theorem filter_not_mem_take_map (l : List EventRecord) (k : Nat)
    (hord : ∀ r ∈ l.take k, ∀ r2 ∈ l.drop k, r.id < r2.id) :
    l.filter
        (fun r => decide (r.id ∉ (l.take k).map (fun r2 => r2.id))) =
      l.drop k := by
  have hsplit := List.take_append_drop k l
  set vs := (l.take k).map (fun r2 => r2.id) with hvs
  conv_lhs => rw [← hsplit]
  rw [List.filter_append]
  have h1 : (l.take k).filter (fun r => decide (r.id ∉ vs)) = [] := by
    rw [List.filter_eq_nil_iff]
    intro r hr
    simp only [decide_eq_true_eq, not_not]
    exact List.mem_map_of_mem _ hr
  have h2 : (l.drop k).filter (fun r => decide (r.id ∉ vs)) = l.drop k := by
    rw [List.filter_eq_self]
    intro r hr
    simp only [decide_eq_true_eq]
    intro hmem
    obtain ⟨r2, hr2, heq⟩ := List.mem_map.1 hmem
    have := hord r2 hr2 r hr
    omega
  rw [h1, h2, List.nil_append]

/-- C6: after `max_events + k` inserts (`k > 0`) on a fresh subscriber, one
count-based expiry cycle keeps exactly the `max_events` newest events — the
oldest `k` records by id order are the ones deleted, never a newer record
before an older one; their index references are deleted with them (the
index keeps exactly the surviving records' entries), and every surviving
record remains retrievable through the planned buckets. -/
theorem expire_check_count (ts : List Nat) (m k : Nat)
    (hlen : ts.length = m + k) (hk : 0 < k) :
    (expireEventsCheck m (runAdds ts)).data = (runAdds ts).data.drop k ∧
    (expireEventsCheck m (runAdds ts)).data.length = m ∧
    (∀ r ∈ (runAdds ts).data.take k, ∀ r2 ∈ (runAdds ts).data.drop k,
      r.id < r2.id) ∧
    (expireEventsCheck m (runAdds ts)).index = (runAdds ts).index.drop k ∧
    (∀ r ∈ (expireEventsCheck m (runAdds ts)).data,
      r ∈ getRecords (expireEventsCheck m (runAdds ts))
        (getIndexes (expireEventsCheck m (runAdds ts)) 0 0)) := by
  have hdl : (runAdds ts).data.length = m + k := by
    rw [runAdds_data_length, hlen]
  have hnot : ¬(runAdds ts).data.length ≤ m := by omega
  have hexcess : (runAdds ts).data.length - m = k := by omega
  have hdata : (expireEventsCheck m (runAdds ts)).data =
      (runAdds ts).data.drop k := by
    unfold expireEventsCheck
    rw [if_neg hnot]
    dsimp only
    rw [hexcess]
  have hord := runAdds_take_drop_lt ts k
  have hie := runAdds_index_eq_data ts
  have hindex : (expireEventsCheck m (runAdds ts)).index =
      (runAdds ts).index.drop k := by
    unfold expireEventsCheck
    rw [if_neg hnot]
    dsimp only
    rw [hexcess, hie]
    exact filter_not_mem_take_map (runAdds ts).data k hord
  refine ⟨hdata, ?_, hord, hindex, ?_⟩
  · rw [hdata, List.length_drop, hdl]
    omega
  · intro r hr
    have hrix : r ∈ (expireEventsCheck m (runAdds ts)).index := by
      rw [hindex, hie]
      rw [hdata] at hr
      exact hr
    exact covering_superset_open (expireEventsCheck m (runAdds ts)) 0 r hrix
      (Nat.zero_le r.time)

theorem expire_check_count_witness :
    ([10, 20, 30] : List Nat).length = 2 + 1 ∧ 0 < 1 ∧
    ((expireEventsCheck 2 (runAdds [10, 20, 30])).data =
      (runAdds [10, 20, 30]).data.drop 1 ∧
    (expireEventsCheck 2 (runAdds [10, 20, 30])).data.length = 2 ∧
    (∀ r ∈ (runAdds [10, 20, 30]).data.take 1,
      ∀ r2 ∈ (runAdds [10, 20, 30]).data.drop 1, r.id < r2.id) ∧
    (expireEventsCheck 2 (runAdds [10, 20, 30])).index =
      (runAdds [10, 20, 30]).index.drop 1 ∧
    (∀ r ∈ (expireEventsCheck 2 (runAdds [10, 20, 30])).data,
      r ∈ getRecords (expireEventsCheck 2 (runAdds [10, 20, 30]))
        (getIndexes (expireEventsCheck 2 (runAdds [10, 20, 30])) 0 0))) :=
  ⟨by decide, by decide,
    expire_check_count [10, 20, 30] 2 1 (by decide) (by decide)⟩

theorem le_foldl_max (l : List Nat) (a : Nat) : a ≤ l.foldl max a := by
  induction l generalizing a with
  | nil => exact Nat.le_refl a
  | cons x xs ih =>
    exact Nat.le_trans (Nat.le_max_left a x) (ih (max a x))

theorem mem_le_foldl_max (l : List Nat) (a : Nat) :
    ∀ x ∈ l, x ≤ l.foldl max a := by
  induction l generalizing a with
  | nil => intro x hx; cases hx
  | cons y ys ih =>
    intro x hx
    rcases List.mem_cons.1 hx with h | h
    · subst h
      exact Nat.le_trans (Nat.le_max_right a x) (le_foldl_max ys (max a x))
    · exact ih (max a y) x h

theorem optStep_delivered_gt (os : OptState) (c : OptCycle) :
    ∀ i ∈ (optStep os c).1, os.optimize_eid < i := by
  intro i hi
  simp only [optStep, List.mem_map, List.mem_filter, decide_eq_true_eq] at hi
  obtain ⟨r, ⟨_, hgt⟩, hid⟩ := hi
  omega

theorem optStep_eid_mono (os : OptState) (c : OptCycle) :
    os.optimize_eid ≤ (optStep os c).2.optimize_eid :=
  le_foldl_max _ _

theorem optStep_delivered_le (os : OptState) (c : OptCycle) :
    ∀ i ∈ (optStep os c).1, i ≤ (optStep os c).2.optimize_eid :=
  mem_le_foldl_max _ _

theorem runOpt_all_gt (cs : List OptCycle) : ∀ os : OptState,
    ∀ d ∈ runOpt os cs, ∀ i ∈ d, os.optimize_eid < i := by
  induction cs with
  | nil => intro os d hd; cases hd
  | cons c cs ih =>
    intro os d hd
    rcases List.mem_cons.1 hd with h | h
    · subst h; exact optStep_delivered_gt os c
    · intro i hi
      exact Nat.lt_of_le_of_lt (optStep_eid_mono os c)
        (ih (optStep os c).2 d h i hi)

theorem runOpt_pairwise_disjoint (cs : List OptCycle) : ∀ os : OptState,
    List.Pairwise (fun d1 d2 => ∀ i ∈ d1, i ∉ d2) (runOpt os cs) := by
  induction cs with
  | nil => intro os; exact List.Pairwise.nil
  | cons c cs ih =>
    intro os
    refine List.Pairwise.cons ?_ (ih (optStep os c).2)
    intro d hd i hi hcontra
    have h1 : i ≤ (optStep os c).2.optimize_eid :=
      optStep_delivered_le os c i hi
    have h2 : (optStep os c).2.optimize_eid < i :=
      runOpt_all_gt cs (optStep os c).2 d hd i hcontra
    omega

/-- C2 counterexample: the claim says each optimized read "scans the window
from the persisted optimize_time to now", but an optimized read delivers
events whose timestamp lies beyond `now` (here an event at time 1000 is
delivered by a read at `now = 100`), exactly as test_optimize pins: events
inserted with timestamps `t + 800 ..` are delivered by a read at wall-clock
`t`.  The upper bound of the scan is the open-ended `stop = 0` sentinel,
not `now`. -/
theorem optimize_scan_not_capped_at_now :
    (optStep ⟨runAdds [1000], 0, 0⟩ ⟨[], 100⟩).1 = [1] ∧
    (runAdds [1000]).data = [⟨1, 1000⟩] ∧ ¬(1000 ≤ 100) := by
  refine ⟨by decide, by decide, by decide⟩

/-- C2 (amended): each optimized read scans from the persisted
`optimize_time` with an open-ended upper bound (the `stop = 0` sentinel),
excludes every id at or below the persisted `optimize_eid`, and afterwards
persists `optimize_time = now` and `optimize_eid = max(ids delivered this
cycle, previous optimize_eid)`; consequently, over any number of
consecutive optimized read cycles with intervening inserts, no event id is
delivered in two different cycles. -/
theorem optimize_exactly_once (os : OptState) (c : OptCycle)
    (cs : List OptCycle) :
    (optStep os c).2.optimize_time = c.now ∧
    (optStep os c).2.optimize_eid =
      (optStep os c).1.foldl max os.optimize_eid ∧
    (∀ i ∈ (optStep os c).1, os.optimize_eid < i) ∧
    List.Pairwise (fun d1 d2 => ∀ i ∈ d1, i ∉ d2) (runOpt os cs) :=
  ⟨rfl, rfl, optStep_delivered_gt os c, runOpt_pairwise_disjoint cs os⟩

theorem optimize_exactly_once_witness :
    (optStep ⟨emptyState, 0, 0⟩ ⟨[5], 10⟩).2.optimize_time = 10 ∧
    (optStep ⟨emptyState, 0, 0⟩ ⟨[5], 10⟩).2.optimize_eid =
      (optStep ⟨emptyState, 0, 0⟩ ⟨[5], 10⟩).1.foldl max 0 ∧
    (∀ i ∈ (optStep ⟨emptyState, 0, 0⟩ ⟨[5], 10⟩).1, 0 < i) ∧
    List.Pairwise (fun d1 d2 => ∀ i ∈ d1, i ∉ d2)
      (runOpt ⟨emptyState, 0, 0⟩ [⟨[5], 10⟩, ⟨[70], 20⟩]) :=
  optimize_exactly_once ⟨emptyState, 0, 0⟩ ⟨[5], 10⟩ [⟨[5], 10⟩, ⟨[70], 20⟩]

end OsqueryEvents

namespace OsqueryDB

/-- C9 counterexample: the claim says an absent key is "mapped to 'no
value'/an empty result rather than a failure", but the get on an absent key
does return a failed status — test_get_value_does_not_exist expects
`EXPECT_FALSE(s.ok())` ("Unknown keys return failed, but will return empty
data").  At the concrete input, the status component is `false` (a failed
call) while the output stays empty. -/
theorem get_absent_returns_failed_status :
    (getDatabaseValue [] "logs" "does_not_exist" "").1 = false ∧
    (getDatabaseValue [] "logs" "does_not_exist" "").2 = "" := by
  refine ⟨rfl, rfl⟩

/-- C9 (amended): a get on an absent key returns a not-ok (NotFound) status
together with an empty/unchanged output; the absence is a normal condition
that callers map to "no value" rather than treating the store as failed. -/
theorem get_absent_not_found (db : DBStore) (domain key value : String)
    (h : List.lookup (domain, key) db = none) :
    getDatabaseValue db domain key value = (false, value) := by
  simp [getDatabaseValue, h]

theorem get_absent_not_found_witness :
    List.lookup ("logs", "does_not_exist")
      ([] : DBStore) = none ∧
    getDatabaseValue [] "logs" "does_not_exist" "" = (false, "") :=
  ⟨by decide, get_absent_not_found [] "logs" "does_not_exist" "" (by decide)⟩

/-- C10: when a get of a database value fails because the key is absent,
the caller's output argument keeps exactly the value it held before the
call: an empty string output stays empty and an integer output keeps its
prior value (-5 in the test's scenario of reading a freshly deleted key). -/
theorem get_absent_preserves_output (db : DBStore) (domain key : String)
    (s0 : String) (i0 : Int)
    (h : List.lookup (domain, key) db = none) :
    getDatabaseValue db domain key s0 = (false, s0) ∧
    getDatabaseValueInt db domain key i0 = (false, i0) := by
  constructor
  · simp [getDatabaseValue, h]
  · simp [getDatabaseValueInt, h]

theorem get_absent_preserves_output_witness :
    List.lookup ("logs", "k")
      (deleteDatabaseValue (setDatabaseValue [] "logs" "k" "0") "logs" "k") =
        none ∧
    (getDatabaseValue
        (deleteDatabaseValue (setDatabaseValue [] "logs" "k" "0") "logs" "k")
        "logs" "k" "" = (false, "") ∧
      getDatabaseValueInt
        (deleteDatabaseValue (setDatabaseValue [] "logs" "k" "0") "logs" "k")
        "logs" "k" (-5) = (false, -5)) :=
  ⟨by decide,
    get_absent_preserves_output
      (deleteDatabaseValue (setDatabaseValue [] "logs" "k" "0") "logs" "k")
      "logs" "k" "" (-5) (by decide)⟩

end OsqueryDB
